import Mathlib

/-!
Verification development for the WER evaluation pipeline
(src/evaluate_wer.py and src/analyze_wer.py).

The scorer `calculate_wer` (evaluate_wer.py, lines 33-46) and the
aggregator `calculate_statistics` (analyze_wer.py, lines 27-76) are
embedded below.  Python floats are modelled as exact rationals, with
`Option ℚ` used where a pandas/numpy computation produces NaN
(`none` plays the role of NaN).  Library calls (jiwer, pandas, numpy)
are modelled from their implemented semantics, documented at each
definition.
-/

/-- Round half to even to the nearest integer: the rounding mode of
Python's built-in `round` (used as `round(x, 2)` and `round(x, 4)` in
the sources, which scale by a power of ten first). -/
def rne (q : ℚ) : ℤ :=
  if q - ⌊q⌋ < 1/2 then ⌊q⌋
  else if 1/2 < q - ⌊q⌋ then ⌊q⌋ + 1
  else if ⌊q⌋ % 2 = 0 then ⌊q⌋ else ⌊q⌋ + 1

/-- Python's `round(x, 2)`: round half to even at the second decimal. -/
def round2 (q : ℚ) : ℚ := (rne (q * 100) : ℚ) / 100

/-- Python's `round(x, 4)`: round half to even at the fourth decimal. -/
def round4 (q : ℚ) : ℚ := (rne (q * 10000) : ℚ) / 10000

/-- Python's whitespace set: the characters `str.isspace()` accepts
and the regex class `\s` matches on str — ASCII whitespace 09-0D and
20, the C1 separators 1C-1F, NEL 85, NBSP A0, Ogham space 1680, the
Unicode spaces 2000-200A, the line and paragraph separators 2028 and
2029, 202F, 205F and the ideographic space 3000.  Both the `.strip()`
the loader applies to file contents and jiwer's RemoveMultipleSpaces /
Strip transforms use this set. -/
def pyWS (c : Char) : Bool :=
  decide ((0x09 ≤ c.toNat ∧ c.toNat ≤ 0x0d) ∨ c.toNat = 0x20 ∨
    (0x1c ≤ c.toNat ∧ c.toNat ≤ 0x1f) ∨ c.toNat = 0x85 ∨ c.toNat = 0xa0 ∨
    c.toNat = 0x1680 ∨ (0x2000 ≤ c.toNat ∧ c.toNat ≤ 0x200a) ∨
    c.toNat = 0x2028 ∨ c.toNat = 0x2029 ∨ c.toNat = 0x202f ∨
    c.toNat = 0x205f ∨ c.toNat = 0x3000)

/-- jiwer's RemoveMultipleSpaces transform, `re.sub(r"\s\s+", " ",
s)`: every maximal run of two or more whitespace characters becomes a
single space, while a lone whitespace character (a single tab or
newline, say) is kept as it is.  Written with fuel so that it stays
kernel-computable; each step consumes at least one character, so fuel
equal to the length (supplied by `collapseWS` below) never runs
out. -/
def collapseWSF : ℕ → List Char → List Char
  | 0, cs => cs
  | _, [] => []
  | fuel + 1, c :: cs =>
    if pyWS c then
      match cs with
      | [] => [c]
      | d :: _ =>
        if pyWS d then ' ' :: collapseWSF fuel (cs.dropWhile pyWS)
        else c :: collapseWSF fuel cs
    else c :: collapseWSF fuel cs

/-- RemoveMultipleSpaces on a character list. -/
def collapseWS (cs : List Char) : List Char := collapseWSF cs.length cs

/-- jiwer's Strip transform, Python `str.strip()`: drop leading and
trailing Python whitespace. -/
def pyStrip (cs : List Char) : List Char :=
  ((cs.dropWhile pyWS).reverse.dropWhile pyWS).reverse

/-- jiwer's ReduceToListOfListOfWords transform: split on the space
character only (its word_delimiter default), discarding empty words.
Whitespace other than the space character stays inside tokens.  Fuel
as in `collapseWSF`. -/
def splitSpaceF : ℕ → List Char → List (List Char)
  | 0, _ => []
  | _, [] => []
  | fuel + 1, c :: cs =>
    if c = ' ' then splitSpaceF fuel cs
    else (c :: cs.takeWhile (fun d => !(decide (d = ' ')))) ::
      splitSpaceF fuel (cs.dropWhile (fun d => !(decide (d = ' '))))

/-- ReduceToListOfListOfWords on a character list. -/
def splitSpace (cs : List Char) : List (List Char) := splitSpaceF cs.length cs

/-- Word list of a string under jiwer's default transform chain:
RemoveMultipleSpaces, then Strip, then ReduceToListOfListOfWords. -/
def jiwerWords (s : String) : List (List Char) :=
  splitSpace (pyStrip (collapseWS s.data))

/-- Levenshtein (minimum edit) distance with unit insertion, deletion
and substitution costs: the word-level alignment distance jiwer
computes between tokenized reference and hypothesis. -/
def lev {α : Type} [DecidableEq α] : List α → List α → ℕ
  | [], ys => ys.length
  | xs, [] => xs.length
  | x :: xs, y :: ys =>
    if x = y then lev xs ys
    else 1 + min (lev xs ys) (min (lev (x :: xs) ys) (lev xs (y :: ys)))
termination_by xs ys => xs.length + ys.length
decreasing_by all_goals simp only [List.length_cons]; omega

/-- Model of `jiwer.wer(reference, hypothesis)`: tokenize both strings
into words, fail with a ValueError when the transformed reference is
empty (jiwer raises "one or more groundtruths are empty strings"),
otherwise return (substitutions + deletions + insertions) divided by
the reference word count, i.e. word edit distance over reference
length.  An empty hypothesis is allowed (all words deleted). -/
def jiwer_wer (reference hypothesis : String) : Except String ℚ :=
  let rw := jiwerWords reference
  let hw := jiwerWords hypothesis
  if rw = [] then .error "one or more groundtruths are empty strings"
  else .ok ((lev rw hw : ℚ) / (rw.length : ℚ))

/-- Embedding of `calculate_wer` (evaluate_wer.py lines 33-46): return
100.0 when either input is the empty string (Python truthiness `not
reference or not hypothesis`); otherwise compute `jiwer.wer` and
return `round(wer * 100, 2)`; any exception from jiwer is caught and
turned into the sentinel 100.0 (the `except` branch prints a warning
and returns 100.0, so the function never raises to its caller). -/
def calculate_wer (reference hypothesis : String) : ℚ :=
  if reference = "" ∨ hypothesis = "" then 100
  else
    match jiwer_wer reference hypothesis with
    | .ok w => round2 (w * 100)
    | .error _ => 100

/-- A string is blank (empty after trimming) when every character is
Python whitespace; this is the sense of "empty (after trimming)" in
the spec: the pipeline applies `str.strip()` to file contents on load,
so a non-blank string is exactly one that survives trimming. -/
def Blank (s : String) : Prop := ∀ c ∈ s.data, pyWS c = true

instance (s : String) : Decidable (Blank s) := by
  unfold Blank; infer_instance

/-!
Embedding of `calculate_statistics` (analyze_wer.py lines 27-76).

The function builds a dict of pandas statistics over the `wer` column
and finally rounds every float entry to 4 decimal places.  The inputs
are the rational outputs of `calculate_wer`, so the series never holds
NaN; NaN only arises from degenerate sample sizes, and is modelled as
`none`.  Fields whose value involves a square root (std, sem, the
confidence bounds, cv, skewness, kurtosis) are irrational in general;
for them the development records exactly when they are NaN, and the
value-level claims are stated with the square root passed explicitly,
characterized by its defining equation.
-/

/-- Insert a rational into a sorted list, keeping it sorted. -/
def insQ (x : ℚ) : List ℚ → List ℚ
  | [] => [x]
  | y :: t => if x ≤ y then x :: y :: t else y :: insQ x t

/-- Sort a list of rationals ascending: the order statistics that
pandas quantile computations index into. -/
def sortQ : List ℚ → List ℚ
  | [] => []
  | x :: t => insQ x (sortQ t)

/-- Mean as sum over length; division by zero yields the junk value 0,
which is guarded by `meanO` below. -/
def meanQ (xs : List ℚ) : ℚ := xs.sum / xs.length

/-- Model of `wer_values.mean()`: pandas returns NaN on an empty
series, otherwise the arithmetic mean. -/
def meanO (xs : List ℚ) : Option ℚ := if xs.isEmpty then none else some (meanQ xs)

/-- Sample variance with the n-1 denominator, the formula behind
`wer_values.var()` (pandas default ddof=1). -/
def varQ (xs : List ℚ) : ℚ :=
  (xs.map (fun x => (x - meanQ xs) ^ 2)).sum / ((xs.length : ℚ) - 1)

/-- Model of `wer_values.var()`: NaN when there are fewer than 2
samples (zero degrees of freedom at n = 1, empty series at n = 0),
otherwise the n-1 sample variance. -/
def varO (xs : List ℚ) : Option ℚ := if xs.length < 2 then none else some (varQ xs)

/-- Linear-interpolation quantile between order statistics (the
pandas/numpy default interpolation): position `q * (n - 1)` in the
sorted data, interpolating between the neighbouring entries. -/
def quantileQ (q : ℚ) (xs : List ℚ) : ℚ :=
  (sortQ xs).getD (⌊q * ((xs.length : ℚ) - 1)⌋).toNat 0 +
    (q * ((xs.length : ℚ) - 1) - ⌊q * ((xs.length : ℚ) - 1)⌋) *
      ((sortQ xs).getD ((⌊q * ((xs.length : ℚ) - 1)⌋).toNat + 1)
        ((sortQ xs).getD (⌊q * ((xs.length : ℚ) - 1)⌋).toNat 0) -
       (sortQ xs).getD (⌊q * ((xs.length : ℚ) - 1)⌋).toNat 0)

/-- Model of `wer_values.quantile(q)`: NaN on an empty series. -/
def quantileO (q : ℚ) (xs : List ℚ) : Option ℚ :=
  if xs.isEmpty then none else some (quantileQ q xs)

/-- Model of `wer_values.min()`: NaN on an empty series. -/
def listMin : List ℚ → Option ℚ
  | [] => none
  | x :: t => some (t.foldl min x)

/-- Model of `wer_values.max()`: NaN on an empty series. -/
def listMax : List ℚ → Option ℚ
  | [] => none
  | x :: t => some (t.foldl max x)

/-! The entries of the statistics dict.  Every float entry is rounded
to 4 decimal places by the loop at the end of `calculate_statistics`;
`round(nan, 4)` is NaN, so rounding maps `none` to `none`. -/

/-- Dict entry 'count': `int(len(wer_values))`. -/
def stats_count (xs : List ℚ) : ℕ := xs.length

/-- Dict entry 'mean'. -/
def stats_mean (xs : List ℚ) : Option ℚ := (meanO xs).map round4

/-- Dict entry 'median' (pandas median = linear quantile at 0.5). -/
def stats_median (xs : List ℚ) : Option ℚ := (quantileO (1/2) xs).map round4

/-- Dict entry 'variance'. -/
def stats_variance (xs : List ℚ) : Option ℚ := (varO xs).map round4

/-- Dict entry 'min'. -/
def stats_min (xs : List ℚ) : Option ℚ := (listMin xs).map round4

/-- Dict entry 'max'. -/
def stats_max (xs : List ℚ) : Option ℚ := (listMax xs).map round4

/-- Dict entry 'range': max minus min, NaN on an empty series. -/
def stats_range (xs : List ℚ) : Option ℚ :=
  match listMax xs, listMin xs with
  | some a, some b => some (round4 (a - b))
  | _, _ => none

/-- Dict entry 'q1'. -/
def stats_q1 (xs : List ℚ) : Option ℚ := (quantileO (1/4) xs).map round4

/-- Dict entry 'q3'. -/
def stats_q3 (xs : List ℚ) : Option ℚ := (quantileO (3/4) xs).map round4

/-- Dict entry 'iqr': q3 minus q1. -/
def stats_iqr (xs : List ℚ) : Option ℚ :=
  match quantileO (3/4) xs, quantileO (1/4) xs with
  | some a, some b => some (round4 (a - b))
  | _, _ => none

/-- Dict entry 'p5'. -/
def stats_p5 (xs : List ℚ) : Option ℚ := (quantileO (1/20) xs).map round4

/-- Dict entry 'p95'. -/
def stats_p95 (xs : List ℚ) : Option ℚ := (quantileO (19/20) xs).map round4

/-- Dict entry 'std' is `wer_values.std()`, the square root of the
n-1 sample variance; it is NaN exactly when the variance is NaN (the
variance is a sum of squares over a positive denominator, hence never
negative when defined). -/
def stdIsNaN (xs : List ℚ) : Bool := (varO xs).isNone

/-- Dict entry 'sem' is `wer_values.sem()` = std / sqrt(n): NaN
exactly when std is NaN (n is at least 2 whenever std is defined). -/
def semIsNaN (xs : List ℚ) : Bool := stdIsNaN xs

/-- Dict entry 'ci_95_lower' = mean - 1.96 * sem: NaN when the mean or
the sem is NaN (IEEE arithmetic propagates NaN). -/
def ciLowerIsNaN (xs : List ℚ) : Bool := (meanO xs).isNone || semIsNaN xs

/-- Dict entry 'ci_95_upper' = mean + 1.96 * sem: NaN when the mean or
the sem is NaN. -/
def ciUpperIsNaN (xs : List ℚ) : Bool := (meanO xs).isNone || semIsNaN xs

/-- Dict entry 'skewness' is `wer_values.skew()`: pandas returns NaN
when there are fewer than 3 samples. -/
def skewIsNaN (xs : List ℚ) : Bool := xs.length < 3

/-- Dict entry 'kurtosis' is `wer_values.kurtosis()`: pandas returns
NaN when there are fewer than 4 samples. -/
def kurtIsNaN (xs : List ℚ) : Bool := xs.length < 4

/-- Dict entry 'excellent_count': `(wer_values <= 10).sum()`. -/
def excellent_count (xs : List ℚ) : ℕ := xs.countP (fun x => decide (x ≤ 10))

/-- Dict entry 'good_count': `((wer_values > 10) & (wer_values <= 20)).sum()`. -/
def good_count (xs : List ℚ) : ℕ := xs.countP (fun x => decide (10 < x ∧ x ≤ 20))

/-- Dict entry 'fair_count': `((wer_values > 20) & (wer_values <= 30)).sum()`. -/
def fair_count (xs : List ℚ) : ℕ := xs.countP (fun x => decide (20 < x ∧ x ≤ 30))

/-- Dict entry 'poor_count': `(wer_values > 30).sum()`. -/
def poor_count (xs : List ℚ) : ℕ := xs.countP (fun x => decide (30 < x))

/-- Dict entry 'excellent_pct': count over length times 100.  On an
empty series the numpy integer division 0 / 0 produces NaN (with a
RuntimeWarning, not an exception). -/
def excellent_pct (xs : List ℚ) : Option ℚ :=
  if xs.isEmpty then none
  else some (round4 ((excellent_count xs : ℚ) / (xs.length : ℚ) * 100))

/-- Dict entry 'good_pct'. -/
def good_pct (xs : List ℚ) : Option ℚ :=
  if xs.isEmpty then none
  else some (round4 ((good_count xs : ℚ) / (xs.length : ℚ) * 100))

/-- Dict entry 'fair_pct'. -/
def fair_pct (xs : List ℚ) : Option ℚ :=
  if xs.isEmpty then none
  else some (round4 ((fair_count xs : ℚ) / (xs.length : ℚ) * 100))

/-- Dict entry 'poor_pct'. -/
def poor_pct (xs : List ℚ) : Option ℚ :=
  if xs.isEmpty then none
  else some (round4 ((poor_count xs : ℚ) / (xs.length : ℚ) * 100))

/-- The Python guard `wer_values.mean() > 0` on line 54: a NaN mean
compares false. -/
def meanPos (xs : List ℚ) : Bool :=
  match meanO xs with
  | some m => decide (0 < m)
  | none => false

/-- Dict entry 'cv' (line 54): `(std / mean) * 100 if mean > 0 else
0`.  The std value (square root of the n-1 variance) is passed
explicitly because it is irrational in general; the positive branch is
a float and is rounded to 4 decimals by the final loop, the zero
branch is the integer literal 0, which the loop leaves untouched. -/
def stats_cv (xs : List ℚ) (std : ℚ) : ℚ :=
  if meanPos xs then round4 (std / meanQ xs * 100) else 0

/-- IEEE comparison `a <= b` on floats modelled as `Option ℚ`: every
comparison involving NaN is false. -/
def fle : Option ℚ → Option ℚ → Bool
  | some a, some b => decide (a ≤ b)
  | _, _ => false

/-!
Embedding of the ranking in `generate_report` (analyze_wer.py lines
206-213): `ranked = comparison_df.sort_values('mean')`, iterated in
order.  pandas `sort_values` uses its default kind='quicksort', which
argsorts the mean column with numpy's introsort
(npysort/quicksort.c.src, aquicksort_): a segment longer than
SMALL_QUICKSORT + 1 = 16 entries is partitioned with a median-of-3
Hoare-style partition (falling back to aheapsort_ once a global depth
limit of 2 * floor(log2 n) is exhausted), and shorter segments are
insertion sorted.  The embedding below follows that algorithm over a
functional index array; the loops are written with explicit fuel,
always called with more fuel than the algorithm can consume.
-/

def SMALL_QUICKSORT : ℕ := 15

/-- Read slot i of the index array (0 when out of bounds; the
algorithm never reads out of bounds). -/
def lget (t : List ℕ) (i : ℕ) : ℕ := t.getD i 0

/-- Write slot i of the index array (no-op when out of bounds). -/
def lset : List ℕ → ℕ → ℕ → List ℕ
  | [], _, _ => []
  | _ :: xs, 0, v => v :: xs
  | x :: xs, i + 1, v => x :: lset xs i v

/-- Swap two slots of the index array (INTP_SWAP). -/
def lswap (t : List ℕ) (i j : ℕ) : List ℕ := lset (lset t i (lget t j)) j (lget t i)

/-- Sort key at slot i of the index array: v[tosort[i]]. -/
def vat (v : List ℚ) (t : List ℕ) (i : ℕ) : ℚ := v.getD (lget t i) 0

/-- The partition's upward do-while: starting at i, advance while
v[tosort[i]] < vp (the median-of-3 pivot bounds the scan, and the
fuel always exceeds the array length). -/
def scanUp (v : List ℚ) (t : List ℕ) (vp : ℚ) : ℕ → ℕ → ℕ
  | i, 0 => i
  | i, fuel + 1 => if vat v t i < vp then scanUp v t vp (i + 1) fuel else i

/-- The partition's downward do-while: starting at j, retreat while
vp < v[tosort[j]]. -/
def scanDown (v : List ℚ) (t : List ℕ) (vp : ℚ) : ℕ → ℕ → ℕ
  | j, 0 => j
  | j, fuel + 1 => if vp < vat v t j then scanDown v t vp (j - 1) fuel else j

/-- The Hoare partition loop of aquicksort_: move pi up and pj down,
swapping out-of-place entries, until the pointers cross; returns the
updated index array and the final pi. -/
def partLoop (v : List ℚ) (vp : ℚ) : ℕ → List ℕ → ℕ → ℕ → List ℕ × ℕ
  | 0, t, i, _ => (t, i)
  | fuel + 1, t, i, j =>
    let i2 := scanUp v t vp (i + 1) t.length
    let j2 := scanDown v t vp (j - 1) t.length
    if j2 ≤ i2 then (t, i2)
    else partLoop v vp fuel (lswap t i2 j2) i2 j2

/-- Insert index i into a sorted prefix, after every entry whose key
is not greater: one step of the insertion sort that numpy runs on
short segments (an entry only moves left past strictly greater keys,
so equal keys keep their order). -/
def insIdx (v : List ℚ) (i : ℕ) : List ℕ → List ℕ
  | [] => [i]
  | j :: t => if v.getD i 0 < v.getD j 0 then i :: j :: t else j :: insIdx v i t

/-- Insertion sort of an index list, processing entries left to
right. -/
def isortIdx (v : List ℚ) (l : List ℕ) : List ℕ :=
  l.foldl (fun acc i => insIdx v i acc) []

/-- Insertion sort of the segment [pl..pr] of the index array. -/
def insSortSeg (v : List ℚ) (t : List ℕ) (pl pr : ℕ) : List ℕ :=
  t.take pl ++ isortIdx v ((t.drop pl).take (pr + 1 - pl)) ++ t.drop (pr + 1)

/-- One-based read into a heap segment (aheapsort_ uses a 1-based
pointer). -/
def hget (seg : List ℕ) (i : ℕ) : ℕ := seg.getD (i - 1) 0

/-- One-based write into a heap segment. -/
def hset (seg : List ℕ) (i v : ℕ) : List ℕ := lset seg (i - 1) v

/-- The sift-down loop shared by both phases of aheapsort_: tmp is the
saved tosort entry, i the hole, j the candidate child. -/
def siftLoop (v : List ℚ) (n tmp : ℕ) : ℕ → List ℕ → ℕ → ℕ → List ℕ × ℕ
  | 0, seg, i, _ => (seg, i)
  | fuel + 1, seg, i, j =>
    if j ≤ n then
      let j2 := if j < n ∧ v.getD (hget seg j) 0 < v.getD (hget seg (j + 1)) 0 then j + 1 else j
      if v.getD tmp 0 < v.getD (hget seg j2) 0 then
        siftLoop v n tmp fuel (hset seg i (hget seg j2)) j2 (j2 + j2)
      else (seg, i)
    else (seg, i)

/-- The heapify phase of aheapsort_: l runs from n / 2 down to 1. -/
def heapifyLoop (v : List ℚ) (n : ℕ) : ℕ → List ℕ → List ℕ
  | 0, seg => seg
  | l + 1, seg =>
    let tmp := hget seg (l + 1)
    let si := siftLoop v n tmp (n + 2) seg (l + 1) (2 * (l + 1))
    heapifyLoop v n l (hset si.1 si.2 tmp)

/-- The extraction phase of aheapsort_. -/
def extractLoop (v : List ℚ) : ℕ → ℕ → List ℕ → List ℕ
  | 0, _, seg => seg
  | fuel + 1, n, seg =>
    if n ≤ 1 then seg
    else
      let tmp := hget seg n
      let seg1 := hset seg n (hget seg 1)
      let si := siftLoop v (n - 1) tmp (n + 2) seg1 1 2
      extractLoop v fuel (n - 1) (hset si.1 si.2 tmp)

/-- aheapsort_ applied to the segment [pl..pr] of the index array (the
introsort fallback; unreachable before the depth limit is spent). -/
def heapSortSeg (v : List ℚ) (t : List ℕ) (pl pr : ℕ) : List ℕ :=
  t.take pl ++
    extractLoop v (pr + 2 - pl) (pr + 1 - pl)
      (heapifyLoop v (pr + 1 - pl) ((pr + 1 - pl) / 2) ((t.drop pl).take (pr + 1 - pl))) ++
    t.drop (pr + 1)

/-- Position of the highest set bit (npy_get_msb), by halving. -/
def msbAux : ℕ → ℕ → ℕ
  | 0, _ => 0
  | fuel + 1, n => if n ≤ 1 then 0 else msbAux fuel (n / 2) + 1

/-- npy_get_msb(n): floor of log2 for positive n. -/
def npyGetMsb (n : ℕ) : ℕ := msbAux n n

/-- The driver loop of aquicksort_: an explicit stack of pending
segments and a global depth limit.  A segment of more than
SMALL_QUICKSORT + 1 entries is median-of-3 partitioned (after the
depth limit runs out, heapsorted); the larger half is pushed and the
smaller half processed next; short segments are insertion sorted, then
the next pending segment is popped. -/
def qsDriver (v : List ℚ) : ℕ → List ℕ → ℕ → ℕ → List (ℕ × ℕ) → ℤ → List ℕ
  | 0, t, _, _, _, _ => t
  | fuel + 1, t, pl, pr, stk, dl =>
    if SMALL_QUICKSORT < pr - pl then
      if dl < 0 then
        let t2 := heapSortSeg v t pl pr
        match stk with
        | [] => t2
        | (l, r) :: s => qsDriver v fuel t2 l r s dl
      else
        let pm := pl + (pr - pl) / 2
        let t1 := if vat v t pm < vat v t pl then lswap t pm pl else t
        let t2 := if vat v t1 pr < vat v t1 pm then lswap t1 pr pm else t1
        let t3 := if vat v t2 pm < vat v t2 pl then lswap t2 pm pl else t2
        let vp := vat v t3 pm
        let t4 := lswap t3 pm (pr - 1)
        let tp := partLoop v vp t4.length t4 pl (pr - 1)
        let t6 := lswap tp.1 tp.2 (pr - 1)
        if tp.2 - pl < pr - tp.2 then
          qsDriver v fuel t6 pl (tp.2 - 1) ((tp.2 + 1, pr) :: stk) (dl - 1)
        else
          qsDriver v fuel t6 (tp.2 + 1) pr ((pl, tp.2 - 1) :: stk) (dl - 1)
    else
      let t2 := insSortSeg v t pl pr
      match stk with
      | [] => t2
      | (l, r) :: s => qsDriver v fuel t2 l r s dl

/-- numpy `argsort(values, kind='quicksort')` of the mean column
(aquicksort_ on a fresh index array), with ample fuel. -/
def npargsort (v : List ℚ) : List ℕ :=
  qsDriver v (4 * v.length + 16) (List.range v.length) 0 (v.length - 1) []
    (2 * (npyGetMsb v.length : ℤ))

/-- The ranking `generate_report` iterates over: the rows of the
comparison table reordered by the argsort of their mean column
(pandas nargsort; no NaN means arise for non-empty data). -/
def rankByMean (rows : List (String × ℚ)) : List (String × ℚ) :=
  (npargsort (rows.map Prod.snd)).map (fun i => rows.getD i ("", 0))

/-- The order the ranking is claimed to produce: strictly smaller mean
first, ties by original (input) position. -/
def LexR (v : List ℚ) (i j : ℕ) : Prop :=
  v.getD i 0 < v.getD j 0 ∨ (v.getD i 0 = v.getD j 0 ∧ i < j)

/-- Seventeen models, all with the same mean WER: the smallest
comparison table on which numpy quicksort leaves its insertion-sort
regime and runs a partition step. -/
def rows17 : List (String × ℚ) :=
  [("M0", 1), ("M1", 1), ("M2", 1), ("M3", 1), ("M4", 1), ("M5", 1),
   ("M6", 1), ("M7", 1), ("M8", 1), ("M9", 1), ("M10", 1), ("M11", 1),
   ("M12", 1), ("M13", 1), ("M14", 1), ("M15", 1), ("M16", 1)]

/-! Basic facts about the rounding helpers. -/

theorem rne_ge_floor (q : ℚ) : ⌊q⌋ ≤ rne q := by
  unfold rne
  split_ifs <;> omega

theorem rne_le_floor_add_one (q : ℚ) : rne q ≤ ⌊q⌋ + 1 := by
  unfold rne
  split_ifs <;> omega

theorem le_rne (q : ℚ) : q - 1/2 ≤ (rne q : ℚ) := by
  have h0 : (⌊q⌋ : ℚ) ≤ q := Int.floor_le q
  have h1 : q < (⌊q⌋ : ℚ) + 1 := Int.lt_floor_add_one q
  unfold rne
  split_ifs <;> push_cast <;> linarith

theorem rne_le (q : ℚ) : (rne q : ℚ) ≤ q + 1/2 := by
  have h0 : (⌊q⌋ : ℚ) ≤ q := Int.floor_le q
  have h1 : q < (⌊q⌋ : ℚ) + 1 := Int.lt_floor_add_one q
  unfold rne
  split_ifs with h h2 h3 <;> push_cast <;> linarith

theorem rne_mono {a b : ℚ} (h : a ≤ b) : rne a ≤ rne b := by
  have hf : ⌊a⌋ ≤ ⌊b⌋ := Int.floor_le_floor h
  rcases lt_or_eq_of_le hf with hf1 | hf1
  · exact le_trans (rne_le_floor_add_one a) (le_trans (by omega) (rne_ge_floor b))
  · have hr : a - (⌊a⌋ : ℚ) ≤ b - (⌊b⌋ : ℚ) := by
      rw [hf1]; linarith
    unfold rne
    rw [hf1]
    split_ifs <;> first | omega | linarith

theorem rne_intCast (k : ℤ) : rne (k : ℚ) = k := by
  unfold rne
  rw [Int.floor_intCast]
  simp

theorem round2_nonneg {q : ℚ} (h : 0 ≤ q) : 0 ≤ round2 q := by
  unfold round2
  have h1 : (0 : ℤ) ≤ rne (q * 100) := by
    have h2 : (0 : ℤ) = rne ((0 : ℤ) : ℚ) := (rne_intCast 0).symm
    rw [h2]
    exact rne_mono (by push_cast; linarith)
  have h3 : (0 : ℚ) ≤ (rne (q * 100) : ℚ) := by exact_mod_cast h1
  positivity

theorem round2_le_100 {q : ℚ} (h : q ≤ 100) : round2 q ≤ 100 := by
  unfold round2
  have h1 : rne (q * 100) ≤ rne ((10000 : ℤ) : ℚ) := rne_mono (by push_cast; linarith)
  rw [rne_intCast] at h1
  have h2 : (rne (q * 100) : ℚ) ≤ 10000 := by exact_mod_cast h1
  linarith

theorem round2_intCast (k : ℤ) : round2 (k : ℚ) = k := by
  unfold round2
  have : ((k : ℚ) * 100) = (((k * 100 : ℤ) : ℚ)) := by push_cast; ring
  rw [this, rne_intCast]
  push_cast
  ring

theorem round4_mono {a b : ℚ} (h : a ≤ b) : round4 a ≤ round4 b := by
  unfold round4
  have h1 : rne (a * 10000) ≤ rne (b * 10000) := rne_mono (by linarith)
  have h2 : ((rne (a * 10000) : ℤ) : ℚ) ≤ ((rne (b * 10000) : ℤ) : ℚ) := by exact_mod_cast h1
  linarith

theorem round4_close (q : ℚ) : |round4 q - q| ≤ 1/20000 := by
  unfold round4
  have h1 := le_rne (q * 10000)
  have h2 := rne_le (q * 10000)
  rw [abs_le]
  constructor <;> linarith

/-! Basic facts about the word tokenizer and the edit distance. -/

theorem lev_self {α : Type} [DecidableEq α] (xs : List α) : lev xs xs = 0 := by
  induction xs with
  | nil => simp [lev]
  | cons x xs ih => simp [lev, ih]

theorem lev_nil_right {α : Type} [DecidableEq α] (xs : List α) : lev xs [] = xs.length := by
  cases xs <;> simp [lev]

theorem lev_le_max {α : Type} [DecidableEq α] :
    ∀ xs ys : List α, lev xs ys ≤ max xs.length ys.length := by
  intro xs
  induction xs with
  | nil => intro ys; simp [lev]
  | cons x xs ihx =>
    intro ys
    induction ys with
    | nil => simp [lev]
    | cons y ys ihy =>
      by_cases hxy : x = y
      · have h1 := ihx ys
        simp only [lev, if_pos hxy, List.length_cons]
        omega
      · have h1 := ihx ys
        simp only [lev, if_neg hxy, List.length_cons]
        omega

theorem splitSpaceF_eq_nil_iff :
    ∀ (fuel : ℕ) (cs : List Char), cs.length ≤ fuel →
      (splitSpaceF fuel cs = [] ↔ ∀ c ∈ cs, c = ' ')
  | 0, cs, h => by
    have hnil : cs = [] := List.length_eq_zero.mp (Nat.le_zero.mp h)
    subst hnil
    simp [splitSpaceF]
  | fuel + 1, [], _ => by simp [splitSpaceF]
  | fuel + 1, c :: cs, h => by
    by_cases hc : c = ' '
    · have ih := splitSpaceF_eq_nil_iff fuel cs (by
        simp only [List.length_cons] at h; omega)
      simp [splitSpaceF, hc, ih]
    · simp [splitSpaceF, hc]

theorem splitSpace_eq_nil_iff (cs : List Char) :
    splitSpace cs = [] ↔ ∀ c ∈ cs, c = ' ' :=
  splitSpaceF_eq_nil_iff cs.length cs le_rfl

theorem collapseWSF_all_ws :
    ∀ (fuel : ℕ) (cs : List Char), cs.length ≤ fuel →
      (∀ c ∈ cs, pyWS c = true) → ∀ x ∈ collapseWSF fuel cs, pyWS x = true
  | 0, cs, h, _ => by
    have hnil : cs = [] := List.length_eq_zero.mp (Nat.le_zero.mp h)
    subst hnil
    simp [collapseWSF]
  | fuel + 1, [], _, _ => by simp [collapseWSF]
  | fuel + 1, c :: cs, h, hws => by
    have hc : pyWS c = true := hws c (by simp)
    cases cs with
    | nil =>
      intro x hx
      rw [show collapseWSF (fuel + 1) [c] = [c] from by simp [collapseWSF, hc]] at hx
      rcases List.mem_cons.mp hx with rfl | hx2
      · exact hc
      · exact absurd hx2 (List.not_mem_nil x)
    | cons d cs2 =>
      have hd : pyWS d = true := hws d (by simp)
      intro x hx
      rw [show collapseWSF (fuel + 1) (c :: d :: cs2) =
          ' ' :: collapseWSF fuel ((d :: cs2).dropWhile pyWS) from by
          simp [collapseWSF, hc, hd]] at hx
      rcases List.mem_cons.mp hx with rfl | hx2
      · decide
      · refine collapseWSF_all_ws fuel ((d :: cs2).dropWhile pyWS) ?_ ?_ x hx2
        · have h1 : ((d :: cs2).dropWhile pyWS).length ≤ (d :: cs2).length :=
            (List.dropWhile_sublist _).length_le
          simp only [List.length_cons] at h h1 ⊢
          omega
        · intro y hy
          exact hws y (List.mem_cons_of_mem c ((List.dropWhile_sublist _).subset hy))

theorem collapseWS_all_ws {cs : List Char} (hws : ∀ c ∈ cs, pyWS c = true) :
    ∀ x ∈ collapseWS cs, pyWS x = true :=
  collapseWSF_all_ws cs.length cs le_rfl hws

theorem mem_dropWhile_of_neg {p : Char → Bool} {c : Char} {l : List Char}
    (hm : c ∈ l) (hc : p c = false) : c ∈ l.dropWhile p := by
  have happ := List.takeWhile_append_dropWhile p l
  rw [← happ] at hm
  rcases List.mem_append.mp hm with h1 | h1
  · have h2 := List.mem_takeWhile_imp h1
    rw [hc] at h2
    exact absurd h2 (by simp)
  · exact h1

theorem mem_collapseWSF_of_not_ws :
    ∀ (fuel : ℕ) (cs : List Char), cs.length ≤ fuel →
      ∀ c ∈ cs, pyWS c = false → c ∈ collapseWSF fuel cs
  | 0, cs, h, c, hm, _ => by
    have hnil : cs = [] := List.length_eq_zero.mp (Nat.le_zero.mp h)
    subst hnil
    exact absurd hm (List.not_mem_nil c)
  | fuel + 1, [], _, c, hm, _ => absurd hm (List.not_mem_nil c)
  | fuel + 1, a :: cs, h, c, hm, hw => by
    by_cases ha : pyWS a = true
    · have hca : c ≠ a := fun he => by
        rw [he, ha] at hw
        exact absurd hw (by simp)
      have hmc : c ∈ cs := by
        rcases List.mem_cons.mp hm with h1 | h1
        · exact absurd h1 hca
        · exact h1
      cases cs with
      | nil => exact absurd hmc (List.not_mem_nil c)
      | cons d cs2 =>
        by_cases hd : pyWS d = true
        · rw [show collapseWSF (fuel + 1) (a :: d :: cs2) =
              ' ' :: collapseWSF fuel ((d :: cs2).dropWhile pyWS) from by
              simp [collapseWSF, ha, hd]]
          apply List.mem_cons_of_mem
          refine mem_collapseWSF_of_not_ws fuel _ ?_ c (mem_dropWhile_of_neg hmc hw) hw
          have h1 : ((d :: cs2).dropWhile pyWS).length ≤ (d :: cs2).length :=
            (List.dropWhile_sublist _).length_le
          simp only [List.length_cons] at h h1 ⊢
          omega
        · have hd2 : pyWS d = false := by
            cases hdv : pyWS d with
            | false => rfl
            | true => exact absurd hdv hd
          rw [show collapseWSF (fuel + 1) (a :: d :: cs2) =
              a :: collapseWSF fuel (d :: cs2) from by simp [collapseWSF, ha, hd2]]
          apply List.mem_cons_of_mem
          refine mem_collapseWSF_of_not_ws fuel (d :: cs2) ?_ c hmc hw
          simp only [List.length_cons] at h ⊢
          omega
    · have ha2 : pyWS a = false := by
        cases hav : pyWS a with
        | false => rfl
        | true => exact absurd hav ha
      rw [show collapseWSF (fuel + 1) (a :: cs) = a :: collapseWSF fuel cs from by
        simp [collapseWSF, ha2]]
      rcases List.mem_cons.mp hm with h1 | h1
      · rw [h1]
        exact List.mem_cons_self a _
      · refine List.mem_cons_of_mem a
          (mem_collapseWSF_of_not_ws fuel cs ?_ c h1 hw)
        simp only [List.length_cons] at h
        omega

theorem mem_collapseWS_of_not_ws {cs : List Char} {c : Char}
    (hm : c ∈ cs) (hw : pyWS c = false) : c ∈ collapseWS cs :=
  mem_collapseWSF_of_not_ws cs.length cs le_rfl c hm hw

theorem mem_pyStrip_of_not_ws {c : Char} {l : List Char}
    (hm : c ∈ l) (hw : pyWS c = false) : c ∈ pyStrip l := by
  unfold pyStrip
  rw [List.mem_reverse]
  exact mem_dropWhile_of_neg (List.mem_reverse.mpr (mem_dropWhile_of_neg hm hw)) hw

theorem pyStrip_eq_nil_of_all_ws {l : List Char} (h : ∀ c ∈ l, pyWS c = true) :
    pyStrip l = [] := by
  unfold pyStrip
  rw [List.dropWhile_eq_nil_iff.mpr h]
  simp

theorem jiwerWords_eq_nil_iff (s : String) : jiwerWords s = [] ↔ Blank s := by
  unfold jiwerWords
  constructor
  · intro h c hc
    by_contra hcw
    have hcw2 : pyWS c = false := by simpa using hcw
    have h1 : c ∈ collapseWS s.data := mem_collapseWS_of_not_ws hc hcw2
    have h2 : c ∈ pyStrip (collapseWS s.data) := mem_pyStrip_of_not_ws h1 hcw2
    have h3 := (splitSpace_eq_nil_iff _).mp h c h2
    rw [h3] at hcw2
    exact absurd hcw2 (by decide)
  · intro h
    have h1 : pyStrip (collapseWS s.data) = [] :=
      pyStrip_eq_nil_of_all_ws (collapseWS_all_ws h)
    rw [h1]
    rfl

theorem not_blank_ne_empty {s : String} (h : ¬ Blank s) : s ≠ "" := by
  intro he
  apply h
  subst he
  intro c hc
  simp at hc

/-- Helper: on a non-blank reference and a non-empty hypothesis string,
`calculate_wer` reaches the jiwer branch and returns the rounded,
normalized word edit distance. -/
theorem calculate_wer_eq {r h : String} (hr : ¬ Blank r) (hh : h ≠ "") :
    calculate_wer r h =
      round2 ((lev (jiwerWords r) (jiwerWords h) : ℚ) /
        ((jiwerWords r).length : ℚ) * 100) := by
  have hre : r ≠ "" := not_blank_ne_empty hr
  have hrw : jiwerWords r ≠ [] := fun he => hr ((jiwerWords_eq_nil_iff r).mp he)
  unfold calculate_wer jiwer_wer
  rw [if_neg (by tauto), if_neg hrw]

/-- C1 (counterexample): the claim that `calculate_wer` always lies in
[0, 100] for non-blank inputs fails on the code: with reference "a"
and hypothesis "a b c" the word error rate is 2 insertions over 1
reference word, so `calculate_wer` returns 200.0 > 100. -/
theorem calculate_wer_above_100 : (100 : ℚ) < calculate_wer "a" "a b c" := by
  have hv : calculate_wer "a" "a b c" = 200 := by
    simp +decide [calculate_wer, jiwer_wer, jiwerWords, splitSpace, splitSpaceF,
      pyStrip, collapseWS, collapseWSF, lev, round2, rne]
    norm_num [Int.fract]
  rw [hv]; norm_num

/-- C1 (amended): for non-blank reference and hypothesis,
`calculate_wer` is always at least 0, and it is at most 100 provided
the hypothesis has no more words than the reference; the upper bound
of the original claim fails when the hypothesis has extra words
(insertions can push the rate above 100 percent). -/
theorem calculate_wer_bounds (r h : String) (hr : ¬ Blank r) (hh : ¬ Blank h)
    (hlen : (jiwerWords h).length ≤ (jiwerWords r).length) :
    0 ≤ calculate_wer r h ∧ calculate_wer r h ≤ 100 := by
  rw [calculate_wer_eq hr (not_blank_ne_empty hh)]
  have hrw : jiwerWords r ≠ [] := fun he => hr ((jiwerWords_eq_nil_iff r).mp he)
  have hn : 0 < (jiwerWords r).length := List.length_pos.mpr hrw
  have hn' : (0 : ℚ) < ((jiwerWords r).length : ℚ) := by exact_mod_cast hn
  have hlev : lev (jiwerWords r) (jiwerWords h) ≤ (jiwerWords r).length := by
    have := lev_le_max (jiwerWords r) (jiwerWords h)
    omega
  have hlev' : ((lev (jiwerWords r) (jiwerWords h) : ℕ) : ℚ) ≤ ((jiwerWords r).length : ℚ) := by
    exact_mod_cast hlev
  constructor
  · apply round2_nonneg
    positivity
  · apply round2_le_100
    rw [div_mul_eq_mul_div, div_le_iff₀ hn']
    nlinarith

/-- Witness for the amended C1 bound at a concrete input. -/
theorem calculate_wer_bounds_witness :
    0 ≤ calculate_wer "the quick brown fox" "the quick fox" ∧
      calculate_wer "the quick brown fox" "the quick fox" ≤ 100 :=
  calculate_wer_bounds _ _ (by decide) (by decide)
    (by simp +decide [jiwerWords, splitSpace, splitSpaceF, pyStrip, collapseWS, collapseWSF])

/-- C4: `calculate_wer` is a total function (the embedding returns a
value on every input, mirroring the `except` handler that converts any
jiwer failure into the sentinel), it returns the sentinel 100.0
whenever either input is blank (empty after trimming), and in
particular `score(r, "")` and `score("", h)` are 100.0 for all r, h. -/
theorem calculate_wer_sentinel (r h : String) :
    (Blank r ∨ Blank h → calculate_wer r h = 100) ∧
      calculate_wer r "" = 100 ∧ calculate_wer "" h = 100 := by
  refine ⟨?_, ?_, ?_⟩
  · intro hb
    by_cases hre : r = ""
    · unfold calculate_wer; rw [if_pos (Or.inl hre)]
    · by_cases hhe : h = ""
      · unfold calculate_wer; rw [if_pos (Or.inr hhe)]
      · by_cases hbr : Blank r
        · have hrw : jiwerWords r = [] := (jiwerWords_eq_nil_iff r).mpr hbr
          unfold calculate_wer jiwer_wer
          rw [if_neg (by tauto), if_pos hrw]
        · have hbh : Blank h := by tauto
          have hhw : jiwerWords h = [] := (jiwerWords_eq_nil_iff h).mpr hbh
          rw [calculate_wer_eq hbr hhe, hhw, lev_nil_right]
          have hrw : jiwerWords r ≠ [] := fun he => hbr ((jiwerWords_eq_nil_iff r).mp he)
          have hn : 0 < (jiwerWords r).length := List.length_pos.mpr hrw
          have hn' : ((jiwerWords r).length : ℚ) ≠ 0 := by
            exact_mod_cast Nat.pos_iff_ne_zero.mp hn
          rw [div_self hn', one_mul]
          have h100 := round2_intCast 100
          push_cast at h100
          exact h100
  · unfold calculate_wer; rw [if_pos (Or.inr rfl)]
  · unfold calculate_wer; rw [if_pos (Or.inl rfl)]

/-- Witness for C4: concrete blank and empty inputs all yield 100.0. -/
theorem calculate_wer_sentinel_witness :
    calculate_wer "hello" " " = 100 ∧ calculate_wer "hello" "" = 100 ∧
      calculate_wer "" "hi" = 100 :=
  ⟨(calculate_wer_sentinel "hello" " ").1 (Or.inr (by decide)),
   (calculate_wer_sentinel "hello" "x").2.1,
   (calculate_wer_sentinel "x" "hi").2.2⟩

/-- C6: for non-blank reference and hypothesis, `calculate_wer` equals
the word-level edit distance between the whitespace-tokenized strings,
divided by the reference word count, times 100, rounded to 2 decimal
places. -/
theorem calculate_wer_word_formula (r h : String) (hr : ¬ Blank r) (hh : ¬ Blank h) :
    calculate_wer r h =
      round2 ((lev (jiwerWords r) (jiwerWords h) : ℚ) /
        ((jiwerWords r).length : ℚ) * 100) :=
  calculate_wer_eq hr (not_blank_ne_empty hh)

/-- Witness for C6, including the concrete scenario of the claim:
dropping "brown" from a four-word reference scores 25.0. -/
theorem calculate_wer_word_formula_witness :
    calculate_wer "the quick brown fox" "the quick fox" =
      round2 ((lev (jiwerWords "the quick brown fox") (jiwerWords "the quick fox") : ℚ) /
        ((jiwerWords "the quick brown fox").length : ℚ) * 100) ∧
      calculate_wer "the quick brown fox" "the quick fox" = 25 :=
  ⟨calculate_wer_word_formula _ _ (by decide) (by decide),
   by simp +decide [calculate_wer, jiwer_wer, jiwerWords, splitSpace, splitSpaceF,
      pyStrip, collapseWS, collapseWSF, lev, round2, rne]
      norm_num [Int.fract]⟩

/-- C8: identical reference and hypothesis yield zero error for every
non-blank string. -/
theorem calculate_wer_self_zero (r : String) (hr : ¬ Blank r) : calculate_wer r r = 0 := by
  rw [calculate_wer_eq hr (not_blank_ne_empty hr), lev_self]
  have h0 := round2_intCast 0
  push_cast at h0
  simpa using h0

/-- Witness for C8 at a concrete non-blank string. -/
theorem calculate_wer_self_zero_witness : calculate_wer "abc" "abc" = 0 :=
  calculate_wer_self_zero "abc" (by decide)

/-! Shared facts about the statistics embedding. -/

theorem band_indicator_one (x : ℚ) :
    ((if x ≤ 10 then 1 else 0) + (if 10 < x ∧ x ≤ 20 then 1 else 0) +
      (if 20 < x ∧ x ≤ 30 then 1 else 0) + (if 30 < x then 1 else 0) : ℕ) = 1 := by
  rcases le_or_lt x 10 with h1 | h1
  · rw [if_pos h1, if_neg (by rintro ⟨h, _⟩; linarith), if_neg (by rintro ⟨h, _⟩; linarith),
      if_neg (by intro h; linarith)]
  · rcases le_or_lt x 20 with h2 | h2
    · rw [if_neg (by intro h; linarith), if_pos ⟨h1, h2⟩,
        if_neg (by rintro ⟨h, _⟩; linarith), if_neg (by intro h; linarith)]
    · rcases le_or_lt x 30 with h3 | h3
      · rw [if_neg (by intro h; linarith), if_neg (by rintro ⟨_, h⟩; linarith),
          if_pos ⟨h2, h3⟩, if_neg (by intro h; linarith)]
      · rw [if_neg (by intro h; linarith), if_neg (by rintro ⟨_, h⟩; linarith),
          if_neg (by rintro ⟨_, h⟩; linarith), if_pos h3]

theorem band_counts_sum (xs : List ℚ) :
    excellent_count xs + good_count xs + fair_count xs + poor_count xs = xs.length := by
  induction xs with
  | nil => rfl
  | cons x t ih =>
    unfold excellent_count good_count fair_count poor_count at *
    simp only [List.countP_cons, List.length_cons, decide_eq_true_eq]
    rcases le_or_lt x 10 with h1 | h1
    · rw [if_pos h1, if_neg (by rintro ⟨h, _⟩; linarith), if_neg (by rintro ⟨h, _⟩; linarith),
        if_neg (by intro h; linarith)]
      omega
    · rcases le_or_lt x 20 with h2 | h2
      · rw [if_neg (by intro h; linarith), if_pos ⟨h1, h2⟩,
          if_neg (by rintro ⟨h, _⟩; linarith), if_neg (by intro h; linarith)]
        omega
      · rcases le_or_lt x 30 with h3 | h3
        · rw [if_neg (by intro h; linarith), if_neg (by rintro ⟨_, h⟩; linarith),
            if_pos ⟨h2, h3⟩, if_neg (by intro h; linarith)]
          omega
        · rw [if_neg (by intro h; linarith), if_neg (by rintro ⟨_, h⟩; linarith),
            if_neg (by rintro ⟨_, h⟩; linarith), if_pos h3]
          omega

theorem list_all_zero_of_sum_zero {l : List ℚ} (hnn : ∀ x ∈ l, 0 ≤ x)
    (hs : l.sum = 0) : ∀ x ∈ l, x = 0 := by
  induction l with
  | nil => simp
  | cons a t ih =>
    simp only [List.sum_cons] at hs
    have ha : 0 ≤ a := hnn a (by simp)
    have hts : 0 ≤ t.sum := List.sum_nonneg (fun x hx => hnn x (by simp [hx]))
    have ha0 : a = 0 := by linarith
    have hts0 : t.sum = 0 := by linarith
    intro x hx
    rcases List.mem_cons.mp hx with hx1 | hx1
    · rw [hx1, ha0]
    · exact ih (fun y hy => hnn y (by simp [hy])) hts0 x hx1

theorem quantileQ_singleton (q x : ℚ) : quantileQ q [x] = x := by
  unfold quantileQ
  norm_num [sortQ, insQ]

/-- C2 (code behaviour at the failing input): `calculate_statistics`
applied to an empty sequence raises nothing — no InsufficientDataError
(or any error class) exists in the repository.  pandas returns NaN for
every statistic of an empty series and the percentage divisions 0/0
yield NaN under a numpy RuntimeWarning, so the function silently
returns a record with count 0 and NaN entries, which is exactly what
the claim says must not happen. -/
theorem calculate_statistics_empty_nan_record :
    stats_count [] = 0 ∧ stats_mean [] = none ∧ stats_median [] = none ∧
      stats_variance [] = none ∧ stats_min [] = none ∧ stats_max [] = none ∧
      stats_range [] = none ∧ stats_q1 [] = none ∧ stats_q3 [] = none ∧
      stats_iqr [] = none ∧ stats_p5 [] = none ∧ stats_p95 [] = none ∧
      stdIsNaN [] = true ∧ semIsNaN [] = true ∧ ciLowerIsNaN [] = true ∧
      ciUpperIsNaN [] = true ∧ skewIsNaN [] = true ∧ kurtIsNaN [] = true ∧
      excellent_count [] = 0 ∧ good_count [] = 0 ∧ fair_count [] = 0 ∧
      poor_count [] = 0 ∧ excellent_pct [] = none ∧ good_pct [] = none ∧
      fair_pct [] = none ∧ poor_pct [] = none := by
  decide

/-- C10: on a one-element input the sample (n-1) statistics are
undefined: variance, std, sem and both confidence bounds are NaN, as
are skewness (pandas needs n ≥ 3) and kurtosis (n ≥ 4); mean, median,
min, max, the quantiles and the band counts are still well defined,
all equal to the single value (rounded to the record's 4 decimals)
respectively summing to the sample count 1. -/
theorem calculate_statistics_singleton (x : ℚ) :
    stats_variance [x] = none ∧ stdIsNaN [x] = true ∧ semIsNaN [x] = true ∧
      ciLowerIsNaN [x] = true ∧ ciUpperIsNaN [x] = true ∧
      skewIsNaN [x] = true ∧ kurtIsNaN [x] = true ∧
      stats_count [x] = 1 ∧
      stats_mean [x] = some (round4 x) ∧ stats_median [x] = some (round4 x) ∧
      stats_min [x] = some (round4 x) ∧ stats_max [x] = some (round4 x) ∧
      stats_q1 [x] = some (round4 x) ∧ stats_q3 [x] = some (round4 x) ∧
      stats_p5 [x] = some (round4 x) ∧ stats_p95 [x] = some (round4 x) ∧
      excellent_count [x] + good_count [x] + fair_count [x] + poor_count [x] = 1 := by
  have hmean : meanQ [x] = x := by simp [meanQ]
  have hband := band_counts_sum [x]
  refine ⟨rfl, rfl, rfl, rfl, rfl, rfl, rfl, rfl, ?_, ?_, ?_, ?_, ?_, ?_, ?_, ?_, by simpa using hband⟩
  · simp [stats_mean, meanO, hmean]
  · simp [stats_median, quantileO, quantileQ_singleton]
  · simp [stats_min, listMin]
  · simp [stats_max, listMax]
  · simp [stats_q1, quantileO, quantileQ_singleton]
  · simp [stats_q3, quantileO, quantileQ_singleton]
  · simp [stats_p5, quantileO, quantileQ_singleton]
  · simp [stats_p95, quantileO, quantileQ_singleton]

/-- C5 (counterexample): because every float entry of the record is
rounded to 4 decimal places, the stored band percentages for the input
[5, 15, 25] are 33.3333 + 33.3333 + 33.3333 + 0 = 99.9999, which
misses 100 by 10^-4: the claimed 10^-6 tolerance fails on the code. -/
theorem band_pct_sum_misses_tolerance :
    1/1000000 <
      |(excellent_pct [(5 : ℚ), 15, 25]).getD 0 + (good_pct [(5 : ℚ), 15, 25]).getD 0 +
        (fair_pct [(5 : ℚ), 15, 25]).getD 0 + (poor_pct [(5 : ℚ), 15, 25]).getD 0 - 100| := by
  have he : (excellent_pct [(5 : ℚ), 15, 25]).getD 0 = 333333/10000 := by
    norm_num [excellent_pct, excellent_count, List.countP_cons, List.countP_nil,
      decide_eq_true_eq, round4, rne]
  have hg : (good_pct [(5 : ℚ), 15, 25]).getD 0 = 333333/10000 := by
    norm_num [good_pct, good_count, List.countP_cons, List.countP_nil,
      decide_eq_true_eq, round4, rne]
  have hf : (fair_pct [(5 : ℚ), 15, 25]).getD 0 = 333333/10000 := by
    norm_num [fair_pct, fair_count, List.countP_cons, List.countP_nil,
      decide_eq_true_eq, round4, rne]
  have hp : (poor_pct [(5 : ℚ), 15, 25]).getD 0 = 0 := by
    norm_num [poor_pct, poor_count, List.countP_cons, List.countP_nil,
      decide_eq_true_eq, round4, rne]
  rw [he, hg, hf, hp]
  rw [show (333333/10000 + 333333/10000 + 333333/10000 + 0 - 100 : ℚ) = -(1/10000) by norm_num,
    abs_neg, abs_of_pos (by norm_num)]
  norm_num

/-- C5 (amended): for every non-empty input the four band counts are a
partition of the sample: pointwise exactly one band predicate holds,
the counts sum to `sample_count`, and the recorded (4-decimal-rounded)
band percentages sum to 100 within 2 * 10^-4 (the exact, pre-rounding
percentages sum to exactly 100; the original 10^-6 tolerance only
fails because of the record's rounding step). -/
theorem band_partition (xs : List ℚ) (hne : xs ≠ []) :
    excellent_count xs + good_count xs + fair_count xs + poor_count xs = stats_count xs ∧
      (∀ x : ℚ, ((if x ≤ 10 then 1 else 0) + (if 10 < x ∧ x ≤ 20 then 1 else 0) +
        (if 20 < x ∧ x ≤ 30 then 1 else 0) + (if 30 < x then 1 else 0) : ℕ) = 1) ∧
      |(excellent_pct xs).getD 0 + (good_pct xs).getD 0 +
        (fair_pct xs).getD 0 + (poor_pct xs).getD 0 - 100| ≤ 1/5000 := by
  have hsum := band_counts_sum xs
  refine ⟨hsum, band_indicator_one, ?_⟩
  have hne' : xs.isEmpty = false := by
    cases xs with
    | nil => exact absurd rfl hne
    | cons a t => rfl
  have hn : (0 : ℚ) < (xs.length : ℚ) := by
    have h1 : 0 < xs.length := List.length_pos.mpr hne
    exact_mod_cast h1
  simp only [excellent_pct, good_pct, fair_pct, poor_pct, hne', Bool.false_eq_true,
    if_false, Option.getD_some]
  have hc : (excellent_count xs : ℚ) + (good_count xs : ℚ) + (fair_count xs : ℚ) +
      (poor_count xs : ℚ) = (xs.length : ℚ) := by exact_mod_cast hsum
  have hp : (excellent_count xs : ℚ) / (xs.length : ℚ) * 100 +
      (good_count xs : ℚ) / (xs.length : ℚ) * 100 +
      (fair_count xs : ℚ) / (xs.length : ℚ) * 100 +
      (poor_count xs : ℚ) / (xs.length : ℚ) * 100 = 100 := by
    field_simp
    linarith
  have e1 := round4_close ((excellent_count xs : ℚ) / (xs.length : ℚ) * 100)
  have e2 := round4_close ((good_count xs : ℚ) / (xs.length : ℚ) * 100)
  have e3 := round4_close ((fair_count xs : ℚ) / (xs.length : ℚ) * 100)
  have e4 := round4_close ((poor_count xs : ℚ) / (xs.length : ℚ) * 100)
  rw [abs_le] at e1 e2 e3 e4 ⊢
  constructor <;> linarith

/-- Witness for the amended C5 at the concrete input [5, 15, 25]. -/
theorem band_partition_witness :
    excellent_count [(5 : ℚ), 15, 25] + good_count [(5 : ℚ), 15, 25] +
        fair_count [(5 : ℚ), 15, 25] + poor_count [(5 : ℚ), 15, 25] =
        stats_count [(5 : ℚ), 15, 25] ∧
      |(excellent_pct [(5 : ℚ), 15, 25]).getD 0 + (good_pct [(5 : ℚ), 15, 25]).getD 0 +
        (fair_pct [(5 : ℚ), 15, 25]).getD 0 + (poor_pct [(5 : ℚ), 15, 25]).getD 0 - 100| ≤
        1/5000 :=
  ⟨(band_partition [(5 : ℚ), 15, 25] (by decide)).1,
   (band_partition [(5 : ℚ), 15, 25] (by decide)).2.2⟩

/-- C7 (counterexample): at the one-element input [5] the sem, and
with it ci_95_lower, is NaN (the n-1 standard deviation has zero
degrees of freedom), while the mean is 5; an IEEE comparison against
NaN is false, so "ci_95_lower <= mean" fails and the claimed
"always holds" is refuted at a non-empty input. -/
theorem ci_bounds_nan_singleton :
    ciLowerIsNaN [(5 : ℚ)] = true ∧ stats_mean [(5 : ℚ)] = some 5 ∧
      fle none (stats_mean [(5 : ℚ)]) = false := by
  refine ⟨rfl, ?_, rfl⟩
  norm_num [stats_mean, meanO, meanQ, round4, rne]

/-- C7 (amended): for every input with at least two samples, the
recorded variance is the n-1 sample variance, and with std and sqrt(n)
characterized by their squares (std * std = variance, t * t = n), the
95 percent confidence bounds mean - 1.96 * (s / t) and
mean + 1.96 * (s / t) satisfy
ci_95_lower ≤ mean ≤ ci_95_upper even after the record's 4-decimal
rounding.  At n = 1 all of these fields are NaN and the comparison is
false, so the original "always" only holds from two samples on. -/
theorem ci_bounds_ordered (xs : List ℚ) (s t : ℚ) (hn : 2 ≤ xs.length)
    (hs : 0 ≤ s) (_hs2 : s * s = varQ xs) (ht : 0 < t) (_ht2 : t * t = (xs.length : ℚ)) :
    stats_variance xs = some (round4 (varQ xs)) ∧
      round4 (meanQ xs - 1.96 * (s / t)) ≤ round4 (meanQ xs) ∧
      round4 (meanQ xs) ≤ round4 (meanQ xs + 1.96 * (s / t)) := by
  have hst : 0 ≤ s / t := div_nonneg hs (le_of_lt ht)
  have h96 : (0 : ℚ) ≤ 1.96 * (s / t) := by
    have : (0 : ℚ) ≤ (1.96 : ℚ) := by norm_num
    exact mul_nonneg this hst
  refine ⟨?_, round4_mono (by linarith), round4_mono (by linarith)⟩
  unfold stats_variance varO
  rw [if_neg (by omega)]
  rfl

/-- Witness for the amended C7 at [4, 4, 4, 0] (variance 4, so std =
2; n = 4, so sqrt n = 2). -/
theorem ci_bounds_ordered_witness :
    stats_variance [(4 : ℚ), 4, 4, 0] = some (round4 (varQ [(4 : ℚ), 4, 4, 0])) ∧
      round4 (meanQ [(4 : ℚ), 4, 4, 0] - 1.96 * (2 / 2)) ≤ round4 (meanQ [(4 : ℚ), 4, 4, 0]) ∧
      round4 (meanQ [(4 : ℚ), 4, 4, 0]) ≤ round4 (meanQ [(4 : ℚ), 4, 4, 0] + 1.96 * (2 / 2)) :=
  ci_bounds_ordered _ 2 2 (by norm_num) (by norm_num)
    (by norm_num [varQ, meanQ, List.sum_cons, List.sum_nil]) (by norm_num) (by norm_num)

/-- C9: the recorded coefficient of variation is the rounded
(std / mean) * 100 exactly when the mean is strictly positive, and is
the integer 0 otherwise; moreover, since WER values are nonnegative, a
non-positive mean can only come from the degenerate all-zero dataset,
where the variance (and hence the true std) is 0 as well. -/
theorem cv_policy (xs : List ℚ) (s : ℚ) (hnn : ∀ x ∈ xs, 0 ≤ x) (hne : xs ≠ []) :
    (meanPos xs = true → stats_cv xs s = round4 (s / meanQ xs * 100)) ∧
      (meanPos xs = false →
        stats_cv xs s = 0 ∧ (∀ x ∈ xs, x = 0) ∧ varQ xs = 0) := by
  constructor
  · intro hp
    simp [stats_cv, hp]
  · intro hp
    have hcv : stats_cv xs s = 0 := by simp [stats_cv, hp]
    have hne' : xs.isEmpty = false := by
      cases xs with
      | nil => exact absurd rfl hne
      | cons a t => rfl
    have hmean : ¬ (0 < meanQ xs) := by
      unfold meanPos meanO at hp
      rw [hne'] at hp
      simp at hp
      exact not_lt.mpr hp
    have hn : (0 : ℚ) < (xs.length : ℚ) := by
      have h1 : 0 < xs.length := List.length_pos.mpr hne
      exact_mod_cast h1
    have hsum0 : xs.sum = 0 := by
      have hs1 : 0 ≤ xs.sum := List.sum_nonneg hnn
      rcases lt_or_eq_of_le hs1 with hlt | heq
      · exact absurd (div_pos hlt hn) hmean
      · exact heq.symm
    have hall := list_all_zero_of_sum_zero hnn hsum0
    have hmean0 : meanQ xs = 0 := by
      unfold meanQ
      rw [hsum0, zero_div]
    have hvar : varQ xs = 0 := by
      unfold varQ
      rw [List.sum_eq_zero, zero_div]
      intro y hy
      rcases List.mem_map.mp hy with ⟨x, hx, hxy⟩
      rw [← hxy, hall x hx, hmean0]
      ring
    exact ⟨hcv, hall, hvar⟩

/-- Witness for C9: the zero branch at [0, 0] (mean 0 reports cv = 0)
and the positive branch at [2, 4] (mean 3 > 0 reports the rounded
formula). -/
theorem cv_policy_witness :
    stats_cv [(0 : ℚ), 0] 0 = 0 ∧
      stats_cv [(2 : ℚ), 4] 1 = round4 (1 / meanQ [(2 : ℚ), 4] * 100) :=
  ⟨((cv_policy [(0 : ℚ), 0] 0 (by simp) (by simp)).2
      (by norm_num [meanPos, meanO, meanQ])).1,
   (cv_policy [(2 : ℚ), 4] 1 (by simp) (by simp)).1
      (by norm_num [meanPos, meanO, meanQ])⟩

/-! Facts about the ranking embedding. -/

theorem mem_insIdx {v : List ℚ} {i m : ℕ} :
    ∀ {l : List ℕ}, m ∈ insIdx v i l → m = i ∨ m ∈ l := by
  intro l
  induction l with
  | nil => intro h; simpa [insIdx] using h
  | cons j t ih =>
    intro h
    by_cases hc : v.getD i 0 < v.getD j 0
    · simp only [insIdx, if_pos hc, List.mem_cons] at h
      rcases h with h1 | h1 | h1
      · exact Or.inl h1
      · exact Or.inr (by simp [h1])
      · exact Or.inr (List.mem_cons_of_mem j h1)
    · simp only [insIdx, if_neg hc, List.mem_cons] at h
      rcases h with h1 | h1
      · exact Or.inr (by simp [h1])
      · rcases ih h1 with h2 | h2
        · exact Or.inl h2
        · exact Or.inr (List.mem_cons_of_mem j h2)

theorem insIdx_pairwise {v : List ℚ} :
    ∀ {l : List ℕ} {i : ℕ}, l.Pairwise (LexR v) → (∀ j ∈ l, j < i) →
      (insIdx v i l).Pairwise (LexR v) := by
  intro l
  induction l with
  | nil => intro i _ _; simp [insIdx]
  | cons j t ih =>
    intro i hp hlt
    rcases List.pairwise_cons.mp hp with ⟨hj, ht⟩
    by_cases hc : v.getD i 0 < v.getD j 0
    · simp only [insIdx, if_pos hc]
      refine List.Pairwise.cons ?_ hp
      intro m hm
      rcases List.mem_cons.mp hm with rfl | hm2
      · exact Or.inl hc
      · rcases hj m hm2 with h1 | ⟨h1, _⟩
        · exact Or.inl (lt_trans hc h1)
        · exact Or.inl (lt_of_lt_of_le hc (le_of_eq h1))
    · simp only [insIdx, if_neg hc]
      refine List.Pairwise.cons ?_ (ih ht (fun k hk => hlt k (List.mem_cons_of_mem j hk)))
      intro m hm
      rcases mem_insIdx hm with rfl | hm2
      · rcases lt_or_eq_of_le (not_lt.mp hc) with h1 | h1
        · exact Or.inl h1
        · exact Or.inr ⟨h1, hlt j (by simp)⟩
      · exact hj m hm2

theorem insIdx_perm (v : List ℚ) (i : ℕ) :
    ∀ l : List ℕ, (insIdx v i l).Perm (i :: l) := by
  intro l
  induction l with
  | nil => simp [insIdx]
  | cons j t ih =>
    by_cases hc : v.getD i 0 < v.getD j 0
    · simp only [insIdx, if_pos hc]
      exact List.Perm.refl _
    · simp only [insIdx, if_neg hc]
      exact (ih.cons j).trans (List.Perm.swap i j t)

theorem isortIdx_go_pairwise (v : List ℚ) :
    ∀ (l acc : List ℕ), l.Pairwise (· < ·) → acc.Pairwise (LexR v) →
      (∀ j ∈ acc, ∀ i ∈ l, j < i) →
      (l.foldl (fun a i => insIdx v i a) acc).Pairwise (LexR v) := by
  intro l
  induction l with
  | nil => intro acc _ hacc _; simpa using hacc
  | cons i t ih =>
    intro acc hl hacc hcross
    rcases List.pairwise_cons.mp hl with ⟨hi, ht⟩
    simp only [List.foldl_cons]
    apply ih (insIdx v i acc) ht
    · exact insIdx_pairwise hacc (fun j hj => hcross j hj i (by simp))
    · intro j hj i2 hi2
      rcases mem_insIdx hj with rfl | hj2
      · exact hi i2 hi2
      · exact hcross j hj2 i2 (List.mem_cons_of_mem i hi2)

theorem isortIdx_go_perm (v : List ℚ) :
    ∀ (l acc : List ℕ), (l.foldl (fun a i => insIdx v i a) acc).Perm (l ++ acc) := by
  intro l
  induction l with
  | nil => intro acc; simp
  | cons i t ih =>
    intro acc
    simp only [List.foldl_cons, List.cons_append]
    exact ((ih _).trans (List.Perm.append_left t (insIdx_perm v i acc))).trans
      List.perm_middle

theorem isortIdx_pairwise (v : List ℚ) (n : ℕ) :
    (isortIdx v (List.range n)).Pairwise (LexR v) :=
  isortIdx_go_pairwise v (List.range n) [] (List.pairwise_lt_range n)
    (by simp) (by simp)

theorem isortIdx_perm (v : List ℚ) (n : ℕ) :
    (isortIdx v (List.range n)).Perm (List.range n) := by
  have h := isortIdx_go_perm v (List.range n) []
  simpa [isortIdx] using h

theorem qsDriver_insertion (v : List ℚ) (fuel : ℕ) (t : List ℕ) (pl pr : ℕ) (dl : ℤ)
    (h : ¬ SMALL_QUICKSORT < pr - pl) :
    qsDriver v (fuel + 1) t pl pr [] dl = insSortSeg v t pl pr := by
  simp only [qsDriver]
  rw [if_neg h]

theorem npargsort_small (v : List ℚ) (h : v.length ≤ 16) :
    npargsort v = isortIdx v (List.range v.length) := by
  unfold npargsort
  rw [show 4 * v.length + 16 = (4 * v.length + 15) + 1 from by omega]
  rw [qsDriver_insertion v _ _ _ _ _ (by simp only [SMALL_QUICKSORT]; omega)]
  unfold insSortSeg
  cases hn : v.length with
  | zero => simp [isortIdx]
  | succ m =>
    have h1 : m + 1 - 1 + 1 - 0 = m + 1 := by omega
    have h2 : (List.range (m + 1)).take (m + 1) = List.range (m + 1) :=
      List.take_of_length_le (by simp)
    have h3 : (List.range (m + 1)).drop (m + 1 - 1 + 1) = [] := by
      apply List.drop_eq_nil_of_le
      simp
    rw [h1, List.take_zero, List.drop_zero, h2, h3]
    simp

/-- C3 (counterexample): seventeen models with identical mean WER.
With 17 rows, pandas sort_values (numpy quicksort) leaves the
insertion-sort regime and runs one median-of-3 partition step whose
swaps permute equal-keyed entries, so the ranking does not preserve
the input order of the tied models: stability fails, refuting the
unrestricted claim. -/
theorem ranking_not_stable_at_17 :
    rows17.all (fun p => decide (p.2 = 1)) = true ∧
      rankByMean rows17 =
        [("M0", 1), ("M14", 1), ("M13", 1), ("M12", 1), ("M11", 1), ("M10", 1),
         ("M9", 1), ("M15", 1), ("M8", 1), ("M6", 1), ("M5", 1), ("M4", 1),
         ("M3", 1), ("M2", 1), ("M1", 1), ("M7", 1), ("M16", 1)] ∧
      rankByMean rows17 ≠ rows17 := by
  decide

/-- C3 (amended): the ranking orders models by ascending mean WER and,
whenever at most 16 models are compared (numpy quicksort then runs its
stable insertion sort over the whole index range), ties keep their
input order: the ranked index sequence is pairwise ordered by mean
with ties broken by input position, and is a permutation of all row
positions.  With 17 or more models the partition step can reorder tied
models (see the counterexample), so the unrestricted stability claim
fails; the concrete three-model scenario [A(12.0), B(8.5), C(8.5)]
still ranks [B, C, A]. -/
theorem ranking_stable_upto_16 (rows : List (String × ℚ)) (hlen : rows.length ≤ 16) :
    rankByMean rows = (npargsort (rows.map Prod.snd)).map (fun i => rows.getD i ("", 0)) ∧
      (npargsort (rows.map Prod.snd)).Pairwise (LexR (rows.map Prod.snd)) ∧
      (npargsort (rows.map Prod.snd)).Perm (List.range rows.length) := by
  have hv : (rows.map Prod.snd).length = rows.length := by simp
  have hle : (rows.map Prod.snd).length ≤ 16 := by rw [hv]; exact hlen
  refine ⟨rfl, ?_, ?_⟩
  · rw [npargsort_small _ hle]
    exact isortIdx_pairwise _ _
  · rw [npargsort_small _ hle, hv]
    exact isortIdx_perm _ _

/-- Witness for the amended C3: the concrete three-model scenario of
the claim, with the B-C tie kept in input order. -/
theorem ranking_stable_upto_16_witness :
    (npargsort ([("A", (12 : ℚ)), ("B", 8.5), ("C", 8.5)].map Prod.snd)).Pairwise
        (LexR ([("A", (12 : ℚ)), ("B", 8.5), ("C", 8.5)].map Prod.snd)) ∧
      rankByMean [("A", (12 : ℚ)), ("B", 8.5), ("C", 8.5)] =
        [("B", 8.5), ("C", 8.5), ("A", 12)] := by
  constructor
  · exact (ranking_stable_upto_16 [("A", (12 : ℚ)), ("B", 8.5), ("C", 8.5)] (by simp)).2.1
  · unfold rankByMean
    rw [show ([("A", (12 : ℚ)), ("B", 8.5), ("C", 8.5)].map Prod.snd) =
        [(12 : ℚ), 8.5, 8.5] from rfl]
    rw [npargsort_small _ (by simp),
      show ([(12 : ℚ), 8.5, 8.5] : List ℚ).length = 3 from rfl,
      show List.range 3 = [0, 1, 2] from rfl]
    norm_num [isortIdx, insIdx, List.getD_cons_succ, List.getD_cons_zero]
